import Mathlib

/-!
Verification of `tools/bin2img_fp32.py`: a one-shot converter from a raw
binary file of 32-bit floats to a normalized 8-bit 128x128 RGB image.

Modelling conventions (shallow embedding):
* Bytes are natural numbers; a file is a `List` of bytes.
* IEEE-754 binary32 values are decoded bit-exactly into `ℚ` (exact
  arithmetic).  Non-finite encodings (exponent field 255, i.e. Inf/NaN)
  lie outside the exact-value model and are mapped to an explicit
  `ConvError.nonFiniteValue`; all arithmetic on decoded values is exact.
* The degenerate division `0 / 0` that numpy performs when
  `max == min` does not abort the program: numpy only emits a
  RuntimeWarning and yields NaN at every sample, `astype(np.uint8)`
  casts the NaN to an implementation-defined byte (0 on the x86
  platforms numpy targets), and the image is still written with exit
  code 0.  `normalizeVal` returns `none` exactly when the denominator
  is zero (the exact-model stand-in for that NaN), and `quantizeOptU8`
  maps `none` to the documented cast result `nanCastByte`.
* `numpy.astype(np.uint8)` is C-style truncation toward zero; it is only
  applied to values proved to lie in `[0, 255]`.
* The command-line wrapper is modelled as a pure function from the
  argument vector and a read-only filesystem to a result trace
  (exit code, stdout lines, paths read, files written).
-/

namespace Bin2Img

abbrev Byte := ℕ

/-- Number of color planes of the output image. -/
def numChannels : ℕ := 3

/-- Height of the output image in pixels. -/
def imgHeight : ℕ := 128

/-- Width of the output image in pixels. -/
def imgWidth : ℕ := 128

/-- `3 * 128 * 128 = 49152` float samples are consumed. -/
def sampleCount : ℕ := numChannels * imgHeight * imgWidth

/-- `input_bin[:3 * 128 * 128 * 4]`: four bytes per float. -/
def byteCount : ℕ := sampleCount * 4

/-- Little-endian 32-bit word from four bytes. -/
def leWord (b0 b1 b2 b3 : Byte) : ℕ :=
  b0 % 256 + 256 * (b1 % 256) + 65536 * (b2 % 256) + 16777216 * (b3 % 256)

/-- Sign bit of a binary32 word. -/
def f32sign (w : ℕ) : Bool := w / 2 ^ 31 % 2 = 1

/-- Exponent field of a binary32 word. -/
def f32exp (w : ℕ) : ℕ := w / 2 ^ 23 % 256

/-- Fraction field of a binary32 word. -/
def f32frac (w : ℕ) : ℕ := w % 2 ^ 23

/-- Exact rational value of a binary32 word; `none` for Inf/NaN
(exponent field 255).  A normal number is
`(-1)^s * (2^23 + frac) * 2^e / 2^150` and a subnormal is
`(-1)^s * frac * 2 / 2^150`, both exact. -/
def f32toRat (w : ℕ) : Option ℚ :=
  if f32exp w = 255 then none
  else
    some
      (if f32sign w then
        -(if f32exp w = 0 then (f32frac w : ℚ) * 2 / 2 ^ 150
          else ((f32frac w : ℚ) + 2 ^ 23) * 2 ^ f32exp w / 2 ^ 150)
      else
        (if f32exp w = 0 then (f32frac w : ℚ) * 2 / 2 ^ 150
         else ((f32frac w : ℚ) + 2 ^ 23) * 2 ^ f32exp w / 2 ^ 150))

/-- `np.frombuffer(-, dtype=np.float32)` on little-endian data: decode
consecutive 4-byte groups.  `none` when a group is non-finite (model
boundary) or when a trailing group is incomplete (numpy raises on a
buffer size that is not a multiple of the item size). -/
def bytesToFloats : List Byte → Option (List ℚ)
  | [] => some []
  | b0 :: b1 :: b2 :: b3 :: rest =>
    match f32toRat (leWord b0 b1 b2 b3), bytesToFloats rest with
    | some v, some vt => some (v :: vt)
    | _, _ => none
  | _ => none

/-- `input_array.min()`: global minimum of all samples. -/
def listMin : List ℚ → ℚ
  | [] => 0
  | x :: xs => xs.foldl min x

/-- `input_array.max()`: global maximum of all samples. -/
def listMax : List ℚ → ℚ
  | [] => 0
  | x :: xs => xs.foldl max x

/-- `(v - minVal) / (maxVal - minVal) * 255.0` for one sample; `none`
models the NaN arising from the division when `maxVal - minVal = 0`. -/
def normalizeVal (m M v : ℚ) : Option ℚ :=
  if M - m = 0 then none else some ((v - m) / (M - m) * 255)

/-- The whole normalization step: every sample is rescaled with the one
global `(min, max)` pair. -/
def normalizeAll (vs : List ℚ) : List (Option ℚ) :=
  vs.map (normalizeVal (listMin vs) (listMax vs))

/-- Integer truncation toward zero (the C float-to-integer conversion
used by `astype`). -/
def truncTowardZero (x : ℚ) : ℤ := if 0 ≤ x then ⌊x⌋ else -⌊-x⌋

/-- `astype(np.uint8)` of one normalized sample: truncate toward zero,
reduce to the unsigned 8-bit range (the reduction is the identity for
the in-range values this program produces). -/
def quantizeU8 (x : ℚ) : ℕ := (truncTowardZero x).toNat % 256

/-- The byte `astype(np.uint8)` produces for NaN: numpy documents the
cast of a non-finite value as undefined / implementation-defined; on
the x86 platforms numpy targets the hardware conversion yields 0. -/
def nanCastByte : ℕ := 0

/-- `astype(np.uint8)` of one normalized sample, including the
degenerate case: a real value is truncated toward zero, the NaN from
the `0 / 0` division (modelled as `none`) is cast to the
implementation-defined `nanCastByte` — the cast does not raise. -/
def quantizeOptU8 : Option ℚ → ℕ
  | none => nanCastByte
  | some x => quantizeU8 x

/-- An image as rows of columns of channel values. -/
abbrev Image := List (List (List ℕ))

/-- `np.transpose(arr, (1, 2, 0))` followed by `Image.fromarray(-, 'RGB')`:
pixel `(r, c)` channel `k` holds the quantized sample at flat index
`k * (128*128) + r * 128 + c` of the planar array. -/
def imageOf (q : List ℕ) : Image :=
  (List.range imgHeight).map (fun r =>
    (List.range imgWidth).map (fun c =>
      (List.range numChannels).map (fun k =>
        q.getD (k * (imgHeight * imgWidth) + r * imgWidth + c) 0)))

/-- Channel `k` of row `r`, column `c` of an image. -/
def pixelAt (img : Image) (r c k : ℕ) : ℕ := ((img.getD r []).getD c []).getD k 0

/-- The quantized planar sample list of a non-degenerate input: each
sample normalized with the global min and max, then truncated to uint8. -/
def quantList (vs : List ℚ) : List ℕ :=
  vs.map (fun v => quantizeU8 ((v - listMin vs) / (listMax vs - listMin vs) * 255))

inductive ConvError
  | malformedInput
  | nonFiniteValue
deriving DecidableEq

/-- The conversion pipeline on an already-sliced buffer: decode as
float32, check the reshape to `(3, 128, 128)` (exactly 49152 samples),
normalize, quantize, transpose, encode.  A constant-valued buffer is
not an error: the `0 / 0` NaNs are cast sample by sample and an image
is still produced, exactly as the source (which only warns) behaves. -/
def convertBytes (bin : List Byte) : Except ConvError Image :=
  if bin.length = byteCount then
    match bytesToFloats bin with
    | none => Except.error ConvError.nonFiniteValue
    | some vs => Except.ok (imageOf ((normalizeAll vs).map quantizeOptU8))
  else Except.error ConvError.malformedInput

/-- The full conversion: only the first `3 * 128 * 128 * 4` bytes are
considered (`input_bin[:196608]`). -/
def convert (input : List Byte) : Except ConvError Image :=
  convertBytes (input.take byteCount)

/-- The usage text printed when arguments are missing. -/
def usageMessage : String :=
  "Usage: python bin2img_fp32.py <path/to/output.bin> <path/to/output.png>"

/-- Observable outcome of one program run: exit code, lines printed to
standard output, paths opened for reading, and files written. -/
structure ProgResult where
  exitCode : ℕ
  stdout : List String
  readPaths : List String
  written : List (String × Image)
deriving DecidableEq

/-- The `__main__` block: with fewer than two positional arguments
(`len(sys.argv) < 3`) print the usage text and exit with code 1 before
any file access; otherwise read the input path, convert, and on success
write the image to the output path (an uncaught exception terminates
the process with exit code 1 and writes nothing). -/
def runProgram (argv : List String) (fs : String → Option (List Byte)) : ProgResult :=
  match argv with
  | _ :: inputPath :: outputPath :: _ =>
    match fs inputPath with
    | none => ProgResult.mk 1 [] [inputPath] []
    | some b =>
      match convert b with
      | Except.ok img => ProgResult.mk 0 [] [inputPath] [(outputPath, img)]
      | Except.error _ => ProgResult.mk 1 [] [inputPath] []
  | _ => ProgResult.mk 1 [usageMessage] [] []

/-- `n` copies of a block, concatenated; used to build concrete inputs. -/
def repBlocks : ℕ → List α → List α
  | 0, _ => []
  | n + 1, b => b ++ repBlocks n b

/-- Modelled from the spec: the per-channel normalization that the
design notes reject — each 128x128 plane rescaled by its own minimum
and maximum.  Used only as the contrast case for the global-min/max
claim; the program itself never computes this. -/
def perChannelNormalize (vs : List ℚ) : List (Option ℚ) :=
  ((vs.drop 0).take (imgHeight * imgWidth)).map
      (normalizeVal (listMin ((vs.drop 0).take (imgHeight * imgWidth)))
        (listMax ((vs.drop 0).take (imgHeight * imgWidth))))
    ++ ((vs.drop (imgHeight * imgWidth)).take (imgHeight * imgWidth)).map
      (normalizeVal (listMin ((vs.drop (imgHeight * imgWidth)).take (imgHeight * imgWidth)))
        (listMax ((vs.drop (imgHeight * imgWidth)).take (imgHeight * imgWidth))))
    ++ ((vs.drop (2 * (imgHeight * imgWidth))).take (imgHeight * imgWidth)).map
      (normalizeVal (listMin ((vs.drop (2 * (imgHeight * imgWidth))).take (imgHeight * imgWidth)))
        (listMax ((vs.drop (2 * (imgHeight * imgWidth))).take (imgHeight * imgWidth))))

/-! ### Generic lemmas about the fold-based minimum and maximum -/

theorem foldl_min_le_init (l : List ℚ) (a : ℚ) : l.foldl min a ≤ a := by
  induction l generalizing a with
  | nil => exact le_refl a
  | cons x xs ih => exact le_trans (ih (min a x)) (min_le_left a x)

theorem foldl_min_le_mem {l : List ℚ} {x : ℚ} (h : x ∈ l) (a : ℚ) :
    l.foldl min a ≤ x := by
  induction l generalizing a with
  | nil => cases h
  | cons y ys ih =>
    rcases List.mem_cons.mp h with rfl | hy
    · exact le_trans (foldl_min_le_init ys (min a x)) (min_le_right a x)
    · exact ih hy (min a y)

theorem le_foldl_min {l : List ℚ} {c a : ℚ} (ha : c ≤ a)
    (h : ∀ x ∈ l, c ≤ x) : c ≤ l.foldl min a := by
  induction l generalizing a with
  | nil => exact ha
  | cons y ys ih =>
    exact ih (le_min ha (h y (List.mem_cons_self y ys)))
      (fun x hx => h x (List.mem_cons_of_mem y hx))

theorem init_le_foldl_max (l : List ℚ) (a : ℚ) : a ≤ l.foldl max a := by
  induction l generalizing a with
  | nil => exact le_refl a
  | cons x xs ih => exact le_trans (le_max_left a x) (ih (max a x))

theorem mem_le_foldl_max {l : List ℚ} {x : ℚ} (h : x ∈ l) (a : ℚ) :
    x ≤ l.foldl max a := by
  induction l generalizing a with
  | nil => cases h
  | cons y ys ih =>
    rcases List.mem_cons.mp h with rfl | hy
    · exact le_trans (le_max_right a x) (init_le_foldl_max ys (max a x))
    · exact ih hy (max a y)

theorem foldl_max_le {l : List ℚ} {c a : ℚ} (ha : a ≤ c)
    (h : ∀ x ∈ l, x ≤ c) : l.foldl max a ≤ c := by
  induction l generalizing a with
  | nil => exact ha
  | cons y ys ih =>
    exact ih (max_le ha (h y (List.mem_cons_self y ys)))
      (fun x hx => h x (List.mem_cons_of_mem y hx))

theorem listMin_le_mem {vs : List ℚ} {x : ℚ} (h : x ∈ vs) : listMin vs ≤ x := by
  cases vs with
  | nil => cases h
  | cons y ys =>
    rcases List.mem_cons.mp h with rfl | hy
    · exact foldl_min_le_init ys x
    · exact foldl_min_le_mem hy y

theorem mem_le_listMax {vs : List ℚ} {x : ℚ} (h : x ∈ vs) : x ≤ listMax vs := by
  cases vs with
  | nil => cases h
  | cons y ys =>
    rcases List.mem_cons.mp h with rfl | hy
    · exact init_le_foldl_max ys x
    · exact mem_le_foldl_max hy y

theorem listMin_eq_of_mem {vs : List ℚ} {c : ℚ} (h1 : c ∈ vs)
    (h2 : ∀ x ∈ vs, c ≤ x) : listMin vs = c := by
  refine le_antisymm (listMin_le_mem h1) ?_
  cases vs with
  | nil => cases h1
  | cons y ys =>
    exact le_foldl_min (h2 y (List.mem_cons_self y ys))
      (fun x hx => h2 x (List.mem_cons_of_mem y hx))

theorem listMax_eq_of_mem {vs : List ℚ} {c : ℚ} (h1 : c ∈ vs)
    (h2 : ∀ x ∈ vs, x ≤ c) : listMax vs = c := by
  refine le_antisymm ?_ (mem_le_listMax h1)
  cases vs with
  | nil => cases h1
  | cons y ys =>
    exact foldl_max_le (h2 y (List.mem_cons_self y ys))
      (fun x hx => h2 x (List.mem_cons_of_mem y hx))

theorem allEq_of_listMin_eq_listMax {vs : List ℚ}
    (h : listMin vs = listMax vs) : ∀ x ∈ vs, ∀ y ∈ vs, x = y := by
  intro x hx y hy
  have h1 : x ≤ y := le_trans (le_trans (mem_le_listMax hx) h.symm.le) (listMin_le_mem hy)
  have h2 : y ≤ x := le_trans (le_trans (mem_le_listMax hy) h.symm.le) (listMin_le_mem hx)
  exact le_antisymm h1 h2

theorem listMin_eq_listMax_of_allEq {vs : List ℚ} (hne : vs ≠ [])
    (h : ∀ x ∈ vs, ∀ y ∈ vs, x = y) : listMin vs = listMax vs := by
  cases vs with
  | nil => exact absurd rfl hne
  | cons y ys =>
    have hmin : listMin (y :: ys) = y :=
      listMin_eq_of_mem (List.mem_cons_self y ys)
        (fun x hx => (h y (List.mem_cons_self y ys) x hx).le)
    have hmax : listMax (y :: ys) = y :=
      listMax_eq_of_mem (List.mem_cons_self y ys)
        (fun x hx => (h x hx y (List.mem_cons_self y ys)).le)
    rw [hmin, hmax]

theorem listMin_le_listMax {vs : List ℚ} (h : vs ≠ []) :
    listMin vs ≤ listMax vs := by
  cases vs with
  | nil => exact absurd rfl h
  | cons y ys =>
    exact le_trans (listMin_le_mem (List.mem_cons_self y ys))
      (mem_le_listMax (List.mem_cons_self y ys))

/-! ### Generic lemmas about `repBlocks` and list indexing -/

theorem length_repBlocks (n : ℕ) (b : List α) :
    (repBlocks n b).length = n * b.length := by
  induction n with
  | zero => simp [repBlocks]
  | succ m ih => simp [repBlocks, ih, Nat.succ_mul, Nat.add_comm]

theorem mem_repBlocks {n : ℕ} {b : List α} {x : α} (h : x ∈ repBlocks n b) :
    x ∈ b := by
  induction n with
  | zero => cases h
  | succ m ih =>
    rcases List.mem_append.mp h with h1 | h2
    · exact h1
    · exact ih h2

theorem mem_repBlocks_of_mem {n : ℕ} {b : List α} {x : α} (hn : 0 < n)
    (h : x ∈ b) : x ∈ repBlocks n b := by
  cases n with
  | zero => cases hn
  | succ m => exact List.mem_append_left _ h

theorem map_repBlocks (f : α → β) (n : ℕ) (b : List α) :
    (repBlocks n b).map f = repBlocks n (b.map f) := by
  induction n with
  | zero => simp [repBlocks]
  | succ m ih => simp [repBlocks, ih]

theorem repBlocks_singleton (n : ℕ) (a : α) :
    repBlocks n [a] = List.replicate n a := by
  induction n with
  | zero => rfl
  | succ m ih => simp [repBlocks, ih, List.replicate_succ]

theorem getD_map_range {n i : ℕ} (f : ℕ → α) (h : i < n) (d : α) :
    ((List.range n).map f).getD i d = f i := by
  have hl : i < ((List.range n).map f).length := by simpa using h
  rw [List.getD_eq_getElem _ _ hl, List.getElem_map, List.getElem_range]

theorem getD_map_of_lt (f : α → β) {l : List α} {i : ℕ} (h : i < l.length)
    (d : β) (dd : α) : (l.map f).getD i d = f (l.getD i dd) := by
  have hl : i < (l.map f).length := by simpa using h
  rw [List.getD_eq_getElem _ _ hl, List.getElem_map,
    List.getD_eq_getElem _ _ h]

/-! ### Lemmas about the decoder and the conversion pipeline -/

theorem bytesToFloats_cons4 {b0 b1 b2 b3 : Byte} {rest : List Byte} {v : ℚ}
    {vt : List ℚ} (h1 : f32toRat (leWord b0 b1 b2 b3) = some v)
    (h2 : bytesToFloats rest = some vt) :
    bytesToFloats (b0 :: b1 :: b2 :: b3 :: rest) = some (v :: vt) := by
  simp [bytesToFloats, h1, h2]

theorem bytesToFloats_length {l : List Byte} {vs : List ℚ}
    (h : bytesToFloats l = some vs) : l.length = 4 * vs.length := by
  induction l using bytesToFloats.induct generalizing vs with
  | case1 =>
    simp [bytesToFloats] at h
    simp [← h]
  | case2 b0 b1 b2 b3 rest v vt hrest hv ih =>
    rw [bytesToFloats_cons4 hv hrest] at h
    obtain rfl : v :: vt = vs := by simpa using h
    have hl := ih hrest
    simp only [List.length_cons]
    omega
  | case3 b0 b1 b2 b3 rest hfail ih =>
    exfalso
    simp only [bytesToFloats] at h
    exact Option.noConfusion h
  | case4 t ht1 ht2 =>
    exfalso
    match t, ht1, ht2 with
    | [], ht1, _ => exact ht1 rfl
    | b0 :: b1 :: b2 :: b3 :: rest, _, ht2 => exact ht2 b0 b1 b2 b3 rest rfl
    | [b0], _, _ => simp [bytesToFloats] at h
    | [b0, b1], _, _ => simp [bytesToFloats] at h
    | [b0, b1, b2], _, _ => simp [bytesToFloats] at h

theorem sample_length_of_decode {input : List Byte} {vs : List ℚ}
    (hlen : byteCount ≤ input.length)
    (hdec : bytesToFloats (input.take byteCount) = some vs) :
    vs.length = sampleCount := by
  have h1 : (input.take byteCount).length = byteCount := by
    simp [List.length_take, Nat.min_eq_left hlen]
  have h2 := bytesToFloats_length hdec
  rw [h1] at h2
  have : byteCount = sampleCount * 4 := rfl
  omega

theorem normalizeAll_of_ne {vs : List ℚ} (hne : listMax vs - listMin vs ≠ 0) :
    normalizeAll vs =
      vs.map (fun v => some ((v - listMin vs) / (listMax vs - listMin vs) * 255)) := by
  unfold normalizeAll normalizeVal
  exact List.map_congr_left (fun v _ => by rw [if_neg hne])

/-- On a long-enough input that decodes to a non-constant finite sample
list, the pipeline succeeds and produces exactly the image of the
globally normalized, truncated samples. -/
theorem convert_ok {input : List Byte} {vs : List ℚ}
    (hlen : byteCount ≤ input.length)
    (hdec : bytesToFloats (input.take byteCount) = some vs)
    (hne : listMin vs ≠ listMax vs) :
    convert input = Except.ok (imageOf (quantList vs)) := by
  have hl : (input.take byteCount).length = byteCount := by
    simp [List.length_take, Nat.min_eq_left hlen]
  have hsub : listMax vs - listMin vs ≠ 0 := sub_ne_zero.mpr (Ne.symm hne)
  have step : convertBytes (input.take byteCount) =
      Except.ok (imageOf ((normalizeAll vs).map quantizeOptU8)) := by
    unfold convertBytes
    rw [if_pos hl, hdec]
  unfold convert
  rw [step, normalizeAll_of_ne hsub]
  simp only [quantList, List.map_map]
  rfl

theorem pixelAt_imageOf (q : List ℕ) {r c k : ℕ} (hr : r < imgHeight)
    (hc : c < imgWidth) (hk : k < numChannels) :
    pixelAt (imageOf q) r c k =
      q.getD (k * (imgHeight * imgWidth) + r * imgWidth + c) 0 := by
  unfold pixelAt imageOf
  rw [getD_map_range _ hr, getD_map_range _ hc, getD_map_range _ hk]

/-! ### Lemmas about truncation and the normalized range -/

theorem quantizeU8_eq_toNat_floor {x : ℚ} (h0 : 0 ≤ x) (h255 : x ≤ 255) :
    quantizeU8 x = (⌊x⌋).toNat := by
  unfold quantizeU8 truncTowardZero
  rw [if_pos h0]
  refine Nat.mod_eq_of_lt ?_
  have hf : ⌊x⌋ ≤ 255 := le_trans (Int.floor_le_floor h255) (by norm_num)
  calc (⌊x⌋).toNat ≤ (255 : ℤ).toNat := Int.toNat_le_toNat hf
    _ < 256 := by norm_num

theorem quantizeU8_mono {x y : ℚ} (h0 : 0 ≤ x) (h255 : y ≤ 255)
    (hxy : x ≤ y) : quantizeU8 x ≤ quantizeU8 y := by
  rw [quantizeU8_eq_toNat_floor h0 (le_trans hxy h255),
    quantizeU8_eq_toNat_floor (le_trans h0 hxy) h255]
  exact Int.toNat_le_toNat (Int.floor_le_floor hxy)

theorem normalized_nonneg {m M v : ℚ} (hm : m ≤ v) (hlt : m < M) :
    0 ≤ (v - m) / (M - m) * 255 := by
  have h1 : 0 ≤ v - m := sub_nonneg.mpr hm
  have h2 : 0 ≤ M - m := sub_nonneg.mpr hlt.le
  positivity

theorem normalized_le_255 {m M v : ℚ} (hv : v ≤ M) (hlt : m < M) :
    (v - m) / (M - m) * 255 ≤ 255 := by
  have hpos : 0 < M - m := sub_pos.mpr hlt
  have h1 : (v - m) / (M - m) ≤ 1 :=
    (div_le_one hpos).mpr (sub_le_sub_right hv m)
  calc (v - m) / (M - m) * 255 ≤ 1 * 255 :=
        mul_le_mul_of_nonneg_right h1 (by norm_num)
    _ = 255 := one_mul 255

theorem quantizeU8_at_min {m M : ℚ} :
    quantizeU8 ((m - m) / (M - m) * 255) = 0 := by
  have : (m - m) / (M - m) * 255 = 0 := by
    rw [sub_self, zero_div, zero_mul]
  rw [this]
  simp [quantizeU8, truncTowardZero]

theorem quantizeU8_at_max {m M : ℚ} (hlt : m < M) :
    quantizeU8 ((M - m) / (M - m) * 255) = 255 := by
  have hsub : M - m ≠ 0 := sub_ne_zero.mpr hlt.ne'
  have : (M - m) / (M - m) * 255 = 255 := by
    rw [div_self hsub, one_mul]
  rw [this]
  have h0 : (0 : ℚ) ≤ 255 := by norm_num
  rw [quantizeU8_eq_toNat_floor h0 (le_refl _)]
  have hf : ⌊(255 : ℚ)⌋ = 255 := by norm_num
  rw [hf]
  rfl

/-! ### Concrete byte encodings and decoder evaluation -/

/-- Little-endian bytes of the float `0.0`. -/
def bZero : List Byte := [0, 0, 0, 0]

/-- Little-endian bytes of the float `1.0` (word `0x3f800000`). -/
def bOne : List Byte := [0, 0, 128, 63]

/-- Little-endian bytes of the float `-1.0` (word `0xbf800000`). -/
def bNegOne : List Byte := [0, 0, 128, 191]

theorem f32_bZero : f32toRat (leWord 0 0 0 0) = some 0 := by
  norm_num [f32toRat, leWord, f32exp, f32frac, f32sign]

theorem f32_bOne : f32toRat (leWord 0 0 128 63) = some 1 := by
  norm_num [f32toRat, leWord, f32exp, f32frac, f32sign]

theorem f32_bNegOne : f32toRat (leWord 0 0 128 191) = some (-1) := by
  norm_num [f32toRat, leWord, f32exp, f32frac, f32sign]

theorem bytesToFloats_append {b rest : List Byte} {vb vr : List ℚ}
    (hb : bytesToFloats b = some vb) (hr : bytesToFloats rest = some vr) :
    bytesToFloats (b ++ rest) = some (vb ++ vr) := by
  induction b using bytesToFloats.induct generalizing vb with
  | case1 =>
    obtain rfl : ([] : List ℚ) = vb := by simpa [bytesToFloats] using hb
    simpa using hr
  | case2 b0 b1 b2 b3 brest v vt hbrest hv ih =>
    rw [bytesToFloats_cons4 hv hbrest] at hb
    obtain rfl : v :: vt = vb := by simpa using hb
    show bytesToFloats (b0 :: b1 :: b2 :: b3 :: (brest ++ rest)) = _
    rw [bytesToFloats_cons4 hv (ih hbrest)]
    simp
  | case3 b0 b1 b2 b3 brest hfail ih =>
    exfalso
    simp only [bytesToFloats] at hb
    exact Option.noConfusion hb
  | case4 t ht1 ht2 =>
    exfalso
    match t, ht1, ht2 with
    | [], ht1, _ => exact ht1 rfl
    | a0 :: a1 :: a2 :: a3 :: arest, _, ht2 => exact ht2 a0 a1 a2 a3 arest rfl
    | [a0], _, _ => simp [bytesToFloats] at hb
    | [a0, a1], _, _ => simp [bytesToFloats] at hb
    | [a0, a1, a2], _, _ => simp [bytesToFloats] at hb

theorem bytesToFloats_repBlocks {b : List Byte} {vb : List ℚ}
    (hb : bytesToFloats b = some vb) (n : ℕ) :
    bytesToFloats (repBlocks n b) = some (repBlocks n vb) := by
  induction n with
  | zero => rfl
  | succ m ih => exact bytesToFloats_append hb ih

theorem bytesToFloats_bZero : bytesToFloats bZero = some [0] := by
  have := @bytesToFloats_cons4 0 0 0 0 [] 0 [] f32_bZero rfl
  simpa [bZero] using this

theorem bytesToFloats_bOne : bytesToFloats bOne = some [1] := by
  have := @bytesToFloats_cons4 0 0 128 63 [] 1 [] f32_bOne rfl
  simpa [bOne] using this

theorem bytesToFloats_bNegOne : bytesToFloats bNegOne = some [-1] := by
  have := @bytesToFloats_cons4 0 0 128 191 [] (-1) [] f32_bNegOne rfl
  simpa [bNegOne] using this

/-! ### Concrete inputs used to instantiate the general theorems -/

/-- 196608 bytes encoding `-1.0` followed by 49151 copies of `1.0`. -/
def witInput : List Byte := bNegOne ++ repBlocks 49151 bOne

/-- The decoded samples of `witInput`. -/
def witVs : List ℚ := -1 :: repBlocks 49151 [1]

/-- 196608 bytes encoding `0.0` in every one of the 49152 slots. -/
def constInput : List Byte := repBlocks 49152 bZero

/-- The decoded samples of `constInput`. -/
def constVs : List ℚ := repBlocks 49152 [0]

/-- 196608 bytes encoding `[-1.0, 0.0, 1.0]` repeated across the slots. -/
def triBytes : List Byte := repBlocks 16384 (bNegOne ++ (bZero ++ bOne))

/-- The decoded samples of `triBytes`. -/
def triPattern : List ℚ := repBlocks 16384 [-1, 0, 1]

/-- A sample list whose three planes have different ranges: plane 0
alternates 0 and 1, planes 1 and 2 alternate 0 and 2. -/
def chanDemo : List ℚ :=
  repBlocks 8192 [0, 1] ++ (repBlocks 8192 [0, 2] ++ repBlocks 8192 [0, 2])

theorem witInput_length : witInput.length = byteCount := by
  rw [witInput, List.length_append, length_repBlocks]
  norm_num [bNegOne, bOne, byteCount, sampleCount, numChannels, imgHeight, imgWidth]

theorem witInput_decode : bytesToFloats (witInput.take byteCount) = some witVs := by
  rw [List.take_of_length_le witInput_length.le]
  show bytesToFloats (0 :: 0 :: 128 :: 191 :: repBlocks 49151 bOne) = _
  rw [bytesToFloats_cons4 f32_bNegOne (bytesToFloats_repBlocks bytesToFloats_bOne 49151)]
  rfl

theorem witVs_min : listMin witVs = -1 := by
  refine listMin_eq_of_mem (List.mem_cons_self _ _) ?_
  intro x hx
  rcases List.mem_cons.mp hx with rfl | hx2
  · exact le_refl _
  · have : x ∈ [(1 : ℚ)] := mem_repBlocks hx2
    simp at this
    rw [this]
    norm_num

theorem witVs_max : listMax witVs = 1 := by
  refine listMax_eq_of_mem
    (List.mem_cons_of_mem _ (mem_repBlocks_of_mem (by norm_num) (List.mem_cons_self _ _))) ?_
  intro x hx
  rcases List.mem_cons.mp hx with rfl | hx2
  · norm_num
  · have : x ∈ [(1 : ℚ)] := mem_repBlocks hx2
    simp at this
    rw [this]

theorem witVs_not_const : ¬ ∀ x ∈ witVs, ∀ y ∈ witVs, x = y := by
  intro h
  have h1 : (-1 : ℚ) ∈ witVs := List.mem_cons_self _ _
  have h2 : (1 : ℚ) ∈ witVs :=
    List.mem_cons_of_mem _ (mem_repBlocks_of_mem (by norm_num) (List.mem_cons_self _ _))
  have := h (-1) h1 1 h2
  norm_num at this

theorem constInput_decode :
    bytesToFloats (constInput.take byteCount) = some constVs := by
  have hlen : constInput.length = byteCount := by
    rw [constInput, length_repBlocks]
    norm_num [bZero, byteCount, sampleCount, numChannels, imgHeight, imgWidth]
  rw [List.take_of_length_le hlen.le]
  exact bytesToFloats_repBlocks bytesToFloats_bZero 49152

theorem constVs_allEq : ∀ x ∈ constVs, ∀ y ∈ constVs, x = y := by
  intro x hx y hy
  have hx2 : x ∈ [(0 : ℚ)] := mem_repBlocks hx
  have hy2 : y ∈ [(0 : ℚ)] := mem_repBlocks hy
  simp at hx2 hy2
  rw [hx2, hy2]

theorem triBytes_decode : bytesToFloats (triBytes.take byteCount) = some triPattern := by
  have hlen : triBytes.length = byteCount := by
    rw [triBytes, length_repBlocks, List.length_append, List.length_append]
    norm_num [bNegOne, bZero, bOne, byteCount, sampleCount, numChannels,
      imgHeight, imgWidth]
  rw [List.take_of_length_le hlen.le]
  have hblock : bytesToFloats (bNegOne ++ (bZero ++ bOne)) = some [-1, 0, 1] :=
    bytesToFloats_append bytesToFloats_bNegOne
      (bytesToFloats_append bytesToFloats_bZero bytesToFloats_bOne)
  exact bytesToFloats_repBlocks hblock 16384

theorem triPattern_min : listMin triPattern = -1 := by
  refine listMin_eq_of_mem
    (mem_repBlocks_of_mem (by norm_num) (List.mem_cons_self _ _)) ?_
  intro x hx
  have : x ∈ [(-1 : ℚ), 0, 1] := mem_repBlocks hx
  simp at this
  rcases this with rfl | rfl | rfl <;> norm_num

theorem triPattern_max : listMax triPattern = 1 := by
  refine listMax_eq_of_mem
    (mem_repBlocks_of_mem (by norm_num)
      (by simp : (1 : ℚ) ∈ [(-1 : ℚ), 0, 1])) ?_
  intro x hx
  have : x ∈ [(-1 : ℚ), 0, 1] := mem_repBlocks hx
  simp at this
  rcases this with rfl | rfl | rfl <;> norm_num

theorem quantList_getD {vs : List ℚ} {i : ℕ} (h : i < vs.length) :
    (quantList vs).getD i 0 =
      quantizeU8 ((vs.getD i 0 - listMin vs) / (listMax vs - listMin vs) * 255) := by
  unfold quantList
  exact getD_map_of_lt _ h 0 0

theorem getD_mem {vs : List ℚ} {i : ℕ} (h : i < vs.length) (d : ℚ) :
    vs.getD i d ∈ vs := by
  rw [List.getD_eq_getElem _ _ h]
  exact List.getElem_mem h

/-! ### The claims -/

/-- C1: for every input of at least 196608 bytes whose 49152 decoded
little-endian 32-bit floats (finite, hence inside the exact-value
model) are not all equal, the conversion succeeds and the output pixel
at the channel/row/column holding the global minimum quantizes to 0,
while the pixel at the channel/row/column holding the global maximum
quantizes to 255. -/
theorem c1_min_to_zero_max_to_255 {input : List Byte} {vs : List ℚ}
    {ki ri ci kj rj cj : ℕ}
    (hlen : byteCount ≤ input.length)
    (hdec : bytesToFloats (input.take byteCount) = some vs)
    (hconst : ¬ ∀ x ∈ vs, ∀ y ∈ vs, x = y)
    (hki : ki < 3) (hri : ri < 128) (hci : ci < 128)
    (hkj : kj < 3) (hrj : rj < 128) (hcj : cj < 128)
    (hmin : vs.getD (ki * 16384 + ri * 128 + ci) 0 = listMin vs)
    (hmax : vs.getD (kj * 16384 + rj * 128 + cj) 0 = listMax vs) :
    convert input = Except.ok (imageOf (quantList vs)) ∧
      pixelAt (imageOf (quantList vs)) ri ci ki = 0 ∧
      pixelAt (imageOf (quantList vs)) rj cj kj = 255 := by
  have hlenv : vs.length = sampleCount := sample_length_of_decode hlen hdec
  have h49 : vs.length = 49152 := by rw [hlenv]; rfl
  have hnil : vs ≠ [] := by
    intro hn
    rw [hn] at h49
    simp at h49
  have hne : listMin vs ≠ listMax vs := fun h => hconst (allEq_of_listMin_eq_listMax h)
  have hlt : listMin vs < listMax vs := lt_of_le_of_ne (listMin_le_listMax hnil) hne
  refine ⟨convert_ok hlen hdec hne, ?_, ?_⟩
  · have hidx : ki * 16384 + ri * 128 + ci < vs.length := by omega
    rw [pixelAt_imageOf (quantList vs) hri hci hki]
    have hindex : ki * (imgHeight * imgWidth) + ri * imgWidth + ci =
        ki * 16384 + ri * 128 + ci := by norm_num [imgHeight, imgWidth]
    rw [hindex, quantList_getD hidx, hmin]
    exact quantizeU8_at_min
  · have hidx : kj * 16384 + rj * 128 + cj < vs.length := by omega
    rw [pixelAt_imageOf (quantList vs) hrj hcj hkj]
    have hindex : kj * (imgHeight * imgWidth) + rj * imgWidth + cj =
        kj * 16384 + rj * 128 + cj := by norm_num [imgHeight, imgWidth]
    rw [hindex, quantList_getD hidx, hmax]
    exact quantizeU8_at_max hlt

/-- Witness for C1: the input `-1.0` followed by 49151 copies of `1.0`;
the minimum sits at flat index 0 (channel 0, row 0, column 0) and maps
to 0, the maximum at flat index 1 (channel 0, row 0, column 1) and maps
to 255. -/
theorem c1_witness :
    byteCount ≤ witInput.length ∧
    bytesToFloats (witInput.take byteCount) = some witVs ∧
    (¬ ∀ x ∈ witVs, ∀ y ∈ witVs, x = y) ∧
    witVs.getD (0 * 16384 + 0 * 128 + 0) 0 = listMin witVs ∧
    witVs.getD (0 * 16384 + 0 * 128 + 1) 0 = listMax witVs ∧
    convert witInput = Except.ok (imageOf (quantList witVs)) ∧
    pixelAt (imageOf (quantList witVs)) 0 0 0 = 0 ∧
    pixelAt (imageOf (quantList witVs)) 0 1 0 = 255 := by
  have h1 : byteCount ≤ witInput.length := witInput_length.ge
  have hmin : witVs.getD (0 * 16384 + 0 * 128 + 0) 0 = listMin witVs := by
    rw [witVs_min]
    rfl
  have hmax : witVs.getD (0 * 16384 + 0 * 128 + 1) 0 = listMax witVs := by
    rw [witVs_max]
    rfl
  exact ⟨h1, witInput_decode, witVs_not_const, hmin, hmax,
    c1_min_to_zero_max_to_255 h1 witInput_decode witVs_not_const
      (by norm_num) (by norm_num) (by norm_num)
      (by norm_num) (by norm_num) (by norm_num) hmin hmax⟩

/-- C7: for every valid input (long enough, finite, non-degenerate),
the quantized planar tensor is transposed from (channel, row, column)
to (row, column, channel) order: the output pixel at row `r`,
column `c`, channel `k` (plane 0 being R, plane 1 G, plane 2 B) is the
quantized value of input sample index `k * 16384 + r * 128 + c`. -/
theorem c7_transpose_channel_order {input : List Byte} {vs : List ℚ}
    {r c k : ℕ}
    (hlen : byteCount ≤ input.length)
    (hdec : bytesToFloats (input.take byteCount) = some vs)
    (hne : listMin vs ≠ listMax vs)
    (hr : r < 128) (hc : c < 128) (hk : k < 3) :
    convert input = Except.ok (imageOf (quantList vs)) ∧
      pixelAt (imageOf (quantList vs)) r c k =
        quantizeU8 ((vs.getD (k * 16384 + r * 128 + c) 0 - listMin vs) /
          (listMax vs - listMin vs) * 255) := by
  have hlenv : vs.length = sampleCount := sample_length_of_decode hlen hdec
  have h49 : vs.length = 49152 := by rw [hlenv]; rfl
  refine ⟨convert_ok hlen hdec hne, ?_⟩
  have hidx : k * 16384 + r * 128 + c < vs.length := by omega
  rw [pixelAt_imageOf (quantList vs) hr hc hk]
  have hindex : k * (imgHeight * imgWidth) + r * imgWidth + c =
      k * 16384 + r * 128 + c := by norm_num [imgHeight, imgWidth]
  rw [hindex, quantList_getD hidx]

/-- Witness for C7 at the concrete input `-1.0` followed by 49151
copies of `1.0`, probing row 0, column 1, channel 0. -/
theorem c7_witness :
    byteCount ≤ witInput.length ∧
    bytesToFloats (witInput.take byteCount) = some witVs ∧
    listMin witVs ≠ listMax witVs ∧
    convert witInput = Except.ok (imageOf (quantList witVs)) ∧
    pixelAt (imageOf (quantList witVs)) 0 1 0 =
      quantizeU8 ((witVs.getD (0 * 16384 + 0 * 128 + 1) 0 - listMin witVs) /
        (listMax witVs - listMin witVs) * 255) := by
  have h1 : byteCount ≤ witInput.length := witInput_length.ge
  have hne : listMin witVs ≠ listMax witVs := by
    rw [witVs_min, witVs_max]
    norm_num
  exact ⟨h1, witInput_decode, hne,
    c7_transpose_channel_order h1 witInput_decode hne
      (by norm_num) (by norm_num) (by norm_num)⟩

/-- C10: quantization is monotone.  For every long-enough input whose
decoded floats are not all equal, and any two sample positions `i`, `j`
among the 49152 samples, if the float at `i` is at most the float at
`j` then the quantized byte at `i` is at most the quantized byte at
`j`. -/
theorem c10_quantization_monotone {input : List Byte} {vs : List ℚ}
    {i j : ℕ}
    (hlen : byteCount ≤ input.length)
    (hdec : bytesToFloats (input.take byteCount) = some vs)
    (hconst : ¬ ∀ x ∈ vs, ∀ y ∈ vs, x = y)
    (hi : i < 49152) (hj : j < 49152)
    (hij : vs.getD i 0 ≤ vs.getD j 0) :
    convert input = Except.ok (imageOf (quantList vs)) ∧
      (quantList vs).getD i 0 ≤ (quantList vs).getD j 0 := by
  have hlenv : vs.length = sampleCount := sample_length_of_decode hlen hdec
  have h49 : vs.length = 49152 := by rw [hlenv]; rfl
  have hnil : vs ≠ [] := by
    intro hn
    rw [hn] at h49
    simp at h49
  have hne : listMin vs ≠ listMax vs := fun h => hconst (allEq_of_listMin_eq_listMax h)
  have hlt : listMin vs < listMax vs := lt_of_le_of_ne (listMin_le_listMax hnil) hne
  refine ⟨convert_ok hlen hdec hne, ?_⟩
  have hi2 : i < vs.length := by omega
  have hj2 : j < vs.length := by omega
  rw [quantList_getD hi2, quantList_getD hj2]
  have hmi : listMin vs ≤ vs.getD i 0 := listMin_le_mem (getD_mem hi2 0)
  have hMj : vs.getD j 0 ≤ listMax vs := mem_le_listMax (getD_mem hj2 0)
  have hpos : (0 : ℚ) < listMax vs - listMin vs := sub_pos.mpr hlt
  refine quantizeU8_mono (normalized_nonneg hmi hlt) (normalized_le_255 hMj hlt) ?_
  have hsub : vs.getD i 0 - listMin vs ≤ vs.getD j 0 - listMin vs :=
    sub_le_sub_right hij _
  have hdiv : (vs.getD i 0 - listMin vs) / (listMax vs - listMin vs) ≤
      (vs.getD j 0 - listMin vs) / (listMax vs - listMin vs) :=
    (div_le_div_iff_of_pos_right hpos).mpr hsub
  exact mul_le_mul_of_nonneg_right hdiv (by norm_num)

/-- Witness for C10 at the concrete input `-1.0` followed by 49151
copies of `1.0`, comparing positions 0 and 1. -/
theorem c10_witness :
    byteCount ≤ witInput.length ∧
    bytesToFloats (witInput.take byteCount) = some witVs ∧
    (¬ ∀ x ∈ witVs, ∀ y ∈ witVs, x = y) ∧
    (0 : ℕ) < 49152 ∧ (1 : ℕ) < 49152 ∧
    witVs.getD 0 0 ≤ witVs.getD 1 0 ∧
    convert witInput = Except.ok (imageOf (quantList witVs)) ∧
    (quantList witVs).getD 0 0 ≤ (quantList witVs).getD 1 0 := by
  have h1 : byteCount ≤ witInput.length := witInput_length.ge
  have hij : witVs.getD 0 0 ≤ witVs.getD 1 0 := by
    have h0 : witVs.getD 0 0 = -1 := rfl
    have h1v : witVs.getD 1 0 = 1 := rfl
    rw [h0, h1v]
    norm_num
  exact ⟨h1, witInput_decode, witVs_not_const, by norm_num, by norm_num, hij,
    c10_quantization_monotone h1 witInput_decode witVs_not_const
      (by norm_num) (by norm_num) hij⟩

/-- C4: for every input shorter than 196608 bytes the conversion fails
with the malformed-input error (the reshape to `(3, 128, 128)` cannot
succeed), and a program run reading such a file writes no output
file. -/
theorem c4_short_input_fails {bytes : List Byte}
    (h : bytes.length < byteCount) :
    convert bytes = Except.error ConvError.malformedInput ∧
      ∀ (prog inP outP : String) (fs : String → Option (List Byte)),
        fs inP = some bytes → (runProgram [prog, inP, outP] fs).written = [] := by
  have hconv : convert bytes = Except.error ConvError.malformedInput := by
    have hl : (bytes.take byteCount).length = bytes.length := by
      simp [List.length_take, Nat.min_eq_right h.le]
    unfold convert convertBytes
    rw [if_neg]
    rw [hl]
    exact Nat.ne_of_lt h
  refine ⟨hconv, ?_⟩
  intro prog inP outP fs hfs
  simp [runProgram, hfs, hconv]

/-- Witness for C4 at the empty input. -/
theorem c4_witness :
    ([] : List Byte).length < byteCount ∧
    convert [] = Except.error ConvError.malformedInput ∧
    (runProgram ["bin2img", "in.bin", "out.png"]
        (fun p => if p = "in.bin" then some [] else none)).written = [] := by
  have h : ([] : List Byte).length < byteCount := by
    norm_num [byteCount, sampleCount, numChannels, imgHeight, imgWidth]
  refine ⟨h, (c4_short_input_fails h).1, ?_⟩
  exact (c4_short_input_fails h).2 "bin2img" "in.bin" "out.png" _ (by simp)

/-- C5: the conversion is deterministic — it is a pure function of the
input bytes, so two runs on equal byte sequences produce identical
results. -/
theorem c5_deterministic (b1 b2 : List Byte) (h : b1 = b2) :
    convert b1 = convert b2 := by
  rw [h]

/-- Witness for C5. -/
theorem c5_witness :
    witInput = witInput ∧ convert witInput = convert witInput :=
  ⟨rfl, c5_deterministic witInput witInput rfl⟩

/-- C6: the output depends only on the first 196608 input bytes — two
inputs agreeing on that prefix convert identically. -/
theorem c6_prefix_only (i1 i2 : List Byte)
    (h : i1.take byteCount = i2.take byteCount) :
    convert i1 = convert i2 := by
  unfold convert
  rw [h]

/-- Witness for C6: the 196608-byte constant input with and without a
trailing byte. -/
theorem c6_witness :
    constInput.take byteCount = (constInput ++ [7]).take byteCount ∧
    convert constInput = convert (constInput ++ [7]) := by
  have hlen : constInput.length = byteCount := by
    rw [constInput, length_repBlocks]
    norm_num [bZero, byteCount, sampleCount, numChannels, imgHeight, imgWidth]
  have h : constInput.take byteCount = (constInput ++ [7]).take byteCount := by
    rw [List.take_of_length_le hlen.le, List.take_left' hlen]
  exact ⟨h, c6_prefix_only _ _ h⟩

theorem normalizeAll_allEq {vs : List ℚ} (hnil : vs ≠ [])
    (hconst : ∀ x ∈ vs, ∀ y ∈ vs, x = y) :
    normalizeAll vs = List.replicate vs.length none := by
  have heq : listMax vs - listMin vs = 0 :=
    sub_eq_zero.mpr (listMin_eq_listMax_of_allEq hnil hconst).symm
  unfold normalizeAll normalizeVal
  refine List.eq_replicate_iff.mpr ⟨by simp, ?_⟩
  intro b hb
  rcases List.mem_map.mp hb with ⟨v, hv, hvb⟩
  rw [← hvb, if_pos heq]

theorem convert_of_allEq {input : List Byte} {vs : List ℚ}
    (hlen : byteCount ≤ input.length)
    (hdec : bytesToFloats (input.take byteCount) = some vs)
    (hconst : ∀ x ∈ vs, ∀ y ∈ vs, x = y) :
    convert input = Except.ok (imageOf (List.replicate vs.length nanCastByte)) := by
  have hlenv : vs.length = sampleCount := sample_length_of_decode hlen hdec
  have h49 : vs.length = 49152 := by rw [hlenv]; rfl
  have hnil : vs ≠ [] := by
    intro hn
    rw [hn] at h49
    simp at h49
  have hl : (input.take byteCount).length = byteCount := by
    simp [List.length_take, Nat.min_eq_left hlen]
  have step : convertBytes (input.take byteCount) =
      Except.ok (imageOf ((normalizeAll vs).map quantizeOptU8)) := by
    unfold convertBytes
    rw [if_pos hl, hdec]
  unfold convert
  rw [step, normalizeAll_allEq hnil hconst, List.map_replicate]
  rfl

theorem constVs_eq_replicate : constVs = List.replicate 49152 (0 : ℚ) :=
  repBlocks_singleton 49152 0

theorem runProgram_ok {prog inP outP : String} {fs : String → Option (List Byte)}
    {b : List Byte} {img : Image}
    (hfs : fs inP = some b) (hconv : convert b = Except.ok img) :
    runProgram [prog, inP, outP] fs = ProgResult.mk 0 [] [inP] [(outP, img)] := by
  show (match fs inP with
    | none => ProgResult.mk 1 [] [inP] []
    | some b2 =>
      match convert b2 with
      | Except.ok img2 => ProgResult.mk 0 [] [inP] [(outP, img2)]
      | Except.error _ => ProgResult.mk 1 [] [inP] []) = _
  rw [hfs]
  show (match convert b with
    | Except.ok img2 => ProgResult.mk 0 [] [inP] [(outP, img2)]
    | Except.error _ => ProgResult.mk 1 [] [inP] []) = _
  rw [hconv]

/-- Counterexample for C8 as stated: on the concrete all-zeros input
(all 49152 decoded floats equal 0.0) the program does not surface the
arithmetic error at all — the run exits with code 0 and writes an
output image file, so "no default/silent output" is false of the
code. -/
theorem c8_counterexample :
    bytesToFloats (constInput.take byteCount) = some (List.replicate 49152 (0 : ℚ)) ∧
    (runProgram ["bin2img", "in.bin", "out.png"]
        (fun p => if p = "in.bin" then some constInput else none)).exitCode = 0 ∧
    (runProgram ["bin2img", "in.bin", "out.png"]
        (fun p => if p = "in.bin" then some constInput else none)).written ≠ [] := by
  have hdec : bytesToFloats (constInput.take byteCount) =
      some (List.replicate 49152 (0 : ℚ)) := by
    rw [constInput_decode, constVs_eq_replicate]
  have hlen : constInput.length = byteCount := by
    rw [constInput, length_repBlocks]
    norm_num [bZero, byteCount, sampleCount, numChannels, imgHeight, imgWidth]
  have hconv := convert_of_allEq hlen.ge constInput_decode constVs_allEq
  refine ⟨hdec, ?_, ?_⟩
  · rw [runProgram_ok (by simp) hconv]
  · rw [runProgram_ok (by simp) hconv]
    simp

/-- C8 (amended): on an input whose 49152 decoded floats are all equal,
the normalization divides by zero, producing the indeterminate NaN
(modelled as `none`) at every single sample; the NaN propagates
unmasked into the uint8 cast, whose result on NaN is
implementation-defined (`nanCastByte`, 0 on x86), and the program
silently writes an output image made only of that cast value and exits
with code 0 — no error is surfaced and no data-derived pixels are
produced. -/
theorem c8_nan_propagated_silently {input : List Byte} {vs : List ℚ}
    (hlen : byteCount ≤ input.length)
    (hdec : bytesToFloats (input.take byteCount) = some vs)
    (hconst : ∀ x ∈ vs, ∀ y ∈ vs, x = y) :
    normalizeAll vs = List.replicate vs.length none ∧
      convert input = Except.ok (imageOf (List.replicate vs.length nanCastByte)) ∧
      ∀ (prog inP outP : String) (fs : String → Option (List Byte)),
        fs inP = some input →
          (runProgram [prog, inP, outP] fs).exitCode = 0 ∧
          (runProgram [prog, inP, outP] fs).written =
            [(outP, imageOf (List.replicate vs.length nanCastByte))] := by
  have hlenv : vs.length = sampleCount := sample_length_of_decode hlen hdec
  have h49 : vs.length = 49152 := by rw [hlenv]; rfl
  have hnil : vs ≠ [] := by
    intro hn
    rw [hn] at h49
    simp at h49
  have hconv := convert_of_allEq hlen hdec hconst
  refine ⟨normalizeAll_allEq hnil hconst, hconv, ?_⟩
  intro prog inP outP fs hfs
  rw [runProgram_ok hfs hconv]
  exact ⟨rfl, rfl⟩

/-- Witness for C8 (amended) at the all-zeros input. -/
theorem c8_witness :
    byteCount ≤ constInput.length ∧
    bytesToFloats (constInput.take byteCount) = some constVs ∧
    (∀ x ∈ constVs, ∀ y ∈ constVs, x = y) ∧
    normalizeAll constVs = List.replicate constVs.length none ∧
    convert constInput = Except.ok (imageOf (List.replicate constVs.length nanCastByte)) ∧
    (runProgram ["bin2img", "in.bin", "out.png"]
        (fun p => if p = "in.bin" then some constInput else none)).exitCode = 0 ∧
    (runProgram ["bin2img", "in.bin", "out.png"]
        (fun p => if p = "in.bin" then some constInput else none)).written =
      [("out.png", imageOf (List.replicate constVs.length nanCastByte))] := by
  have hlen : constInput.length = byteCount := by
    rw [constInput, length_repBlocks]
    norm_num [bZero, byteCount, sampleCount, numChannels, imgHeight, imgWidth]
  have h := c8_nan_propagated_silently hlen.ge constInput_decode constVs_allEq
  have h3 := h.2.2 "bin2img" "in.bin" "out.png"
    (fun p => if p = "in.bin" then some constInput else none) (by simp)
  exact ⟨hlen.ge, constInput_decode, constVs_allEq, h.1, h.2.1, h3.1, h3.2⟩

/-- C9: invoked with fewer than 2 positional arguments
(`len(sys.argv) < 3`), the program prints the usage message to
standard output, exits with code 1, and performs no file access. -/
theorem c9_usage_on_missing_args (argv : List String)
    (fs : String → Option (List Byte)) (h : argv.length < 3) :
    runProgram argv fs = ProgResult.mk 1 [usageMessage] [] [] := by
  match argv, h with
  | [], _ => rfl
  | [a], _ => rfl
  | [a, b], _ => rfl
  | a :: b :: c :: rest, h =>
    exfalso
    simp only [List.length_cons] at h
    omega

/-- Witness for C9 with a single argument (the program name only). -/
theorem c9_witness :
    (["bin2img"] : List String).length < 3 ∧
    runProgram ["bin2img"] (fun _ => none) =
      ProgResult.mk 1 [usageMessage] [] [] :=
  ⟨by norm_num, c9_usage_on_missing_args ["bin2img"] (fun _ => none) (by norm_num)⟩

theorem quant_tri_neg1 : quantizeU8 (((-1 : ℚ) - (-1)) / (1 - (-1)) * 255) = 0 := by
  have h : ((-1 : ℚ) - (-1)) / (1 - (-1)) * 255 = 0 := by norm_num
  rw [h]
  simp [quantizeU8, truncTowardZero]

theorem quant_tri_zero : quantizeU8 (((0 : ℚ) - (-1)) / (1 - (-1)) * 255) = 127 := by
  have h : ((0 : ℚ) - (-1)) / (1 - (-1)) * 255 = 255 / 2 := by norm_num
  rw [h, quantizeU8_eq_toNat_floor (by norm_num) (by norm_num)]
  have hf : ⌊(255 : ℚ) / 2⌋ = 127 := by norm_num
  rw [hf]
  rfl

theorem quant_tri_one : quantizeU8 (((1 : ℚ) - (-1)) / (1 - (-1)) * 255) = 255 := by
  have h : ((1 : ℚ) - (-1)) / (1 - (-1)) * 255 = 255 := by norm_num
  rw [h, quantizeU8_eq_toNat_floor (by norm_num) (by norm_num)]
  have hf : ⌊(255 : ℚ)⌋ = 255 := by norm_num
  rw [hf]
  rfl

theorem quantList_triPattern : quantList triPattern = repBlocks 16384 [0, 127, 255] := by
  unfold quantList
  rw [triPattern_min, triPattern_max]
  rw [show triPattern = repBlocks 16384 [(-1 : ℚ), 0, 1] from rfl, map_repBlocks]
  rw [List.map_cons, List.map_cons, List.map_cons, List.map_nil]
  rw [quant_tri_neg1, quant_tri_zero, quant_tri_one]

/-- C2: quantization truncates toward zero rather than rounding — each
output byte is the integer truncation of
`(v - minVal) / (maxVal - minVal) * 255.0` — and on the input holding
`[-1.0, 0.0, 1.0]` repeated across the 49152 slots, `-1.0` maps to 0,
`1.0` maps to 255, and `0.0` maps to 127 (truncated from 127.5, where
rounding would give 128). -/
theorem c2_truncation_not_rounding :
    (∀ (vs : List ℚ) (i : ℕ), i < vs.length →
        (quantList vs).getD i 0 =
          (truncTowardZero
              ((vs.getD i 0 - listMin vs) / (listMax vs - listMin vs) * 255)).toNat % 256) ∧
    bytesToFloats (triBytes.take byteCount) = some triPattern ∧
    listMin triPattern = -1 ∧ listMax triPattern = 1 ∧
    ((0 : ℚ) - (-1)) / (1 - (-1)) * 255 = 255 / 2 ∧
    quantizeU8 (((0 : ℚ) - (-1)) / (1 - (-1)) * 255) = 127 ∧
    convert triBytes = Except.ok (imageOf (repBlocks 16384 [0, 127, 255])) := by
  refine ⟨?_, triBytes_decode, triPattern_min, triPattern_max,
    by norm_num, quant_tri_zero, ?_⟩
  · intro vs i h
    rw [quantList_getD h]
    rfl
  · have hlen : triBytes.length = byteCount := by
      rw [triBytes, length_repBlocks, List.length_append, List.length_append]
      norm_num [bNegOne, bZero, bOne, byteCount, sampleCount, numChannels,
        imgHeight, imgWidth]
    have hne : listMin triPattern ≠ listMax triPattern := by
      rw [triPattern_min, triPattern_max]
      norm_num
    rw [convert_ok hlen.ge triBytes_decode hne, quantList_triPattern]

/-- Witness for C2 at a concrete two-element sample list. -/
theorem c2_witness :
    (0 : ℕ) < ([(5 : ℚ), 9] : List ℚ).length ∧
    (quantList [(5 : ℚ), 9]).getD 0 0 =
      (truncTowardZero
          ((([(5 : ℚ), 9] : List ℚ).getD 0 0 - listMin [(5 : ℚ), 9]) /
            (listMax [(5 : ℚ), 9] - listMin [(5 : ℚ), 9]) * 255)).toNat % 256 :=
  ⟨by norm_num, c2_truncation_not_rounding.1 [5, 9] 0 (by norm_num)⟩

theorem chanDemo_length : chanDemo.length = 49152 := by
  rw [chanDemo, List.length_append, List.length_append, length_repBlocks,
    length_repBlocks]
  norm_num [List.length_cons]

theorem chanDemo_min : listMin chanDemo = 0 := by
  refine listMin_eq_of_mem
    (List.mem_append_left _ (mem_repBlocks_of_mem (by norm_num) (List.mem_cons_self _ _))) ?_
  intro x hx
  rcases List.mem_append.mp hx with h | h
  · have : x ∈ [(0 : ℚ), 1] := mem_repBlocks h
    simp at this
    rcases this with rfl | rfl <;> norm_num
  · rcases List.mem_append.mp h with h2 | h2 <;>
    · have : x ∈ [(0 : ℚ), 2] := mem_repBlocks h2
      simp at this
      rcases this with rfl | rfl <;> norm_num

theorem chanDemo_max : listMax chanDemo = 2 := by
  refine listMax_eq_of_mem
    (List.mem_append_right _ (List.mem_append_left _
      (mem_repBlocks_of_mem (by norm_num) (by simp)))) ?_
  intro x hx
  rcases List.mem_append.mp hx with h | h
  · have : x ∈ [(0 : ℚ), 1] := mem_repBlocks h
    simp at this
    rcases this with rfl | rfl <;> norm_num
  · rcases List.mem_append.mp h with h2 | h2 <;>
    · have : x ∈ [(0 : ℚ), 2] := mem_repBlocks h2
      simp at this
      rcases this with rfl | rfl <;> norm_num

theorem chanSlice0 :
    (chanDemo.drop 0).take (imgHeight * imgWidth) = repBlocks 8192 [(0 : ℚ), 1] := by
  rw [List.drop_zero, chanDemo]
  exact List.take_left' (by rw [length_repBlocks]; norm_num [imgHeight, imgWidth])

theorem slice0_min : listMin (repBlocks 8192 [(0 : ℚ), 1]) = 0 := by
  refine listMin_eq_of_mem (mem_repBlocks_of_mem (by norm_num) (List.mem_cons_self _ _)) ?_
  intro x hx
  have : x ∈ [(0 : ℚ), 1] := mem_repBlocks hx
  simp at this
  rcases this with rfl | rfl <;> norm_num

theorem slice0_max : listMax (repBlocks 8192 [(0 : ℚ), 1]) = 1 := by
  refine listMax_eq_of_mem (mem_repBlocks_of_mem (by norm_num) (by simp)) ?_
  intro x hx
  have : x ∈ [(0 : ℚ), 1] := mem_repBlocks hx
  simp at this
  rcases this with rfl | rfl <;> norm_num

theorem chanDemo_getD1 : chanDemo.getD 1 0 = 1 := by
  rw [chanDemo,
    List.getD_append _ _ _ 1 (by rw [length_repBlocks]; norm_num)]
  rfl

theorem normalizeAll_chanDemo_getD1 :
    (normalizeAll chanDemo).getD 1 none = some (255 / 2) := by
  unfold normalizeAll
  rw [getD_map_of_lt _ (by rw [chanDemo_length]; norm_num) none 0]
  rw [chanDemo_getD1, chanDemo_min, chanDemo_max]
  norm_num [normalizeVal]

theorem perChannel_chanDemo_getD1 :
    (perChannelNormalize chanDemo).getD 1 none = some 255 := by
  unfold perChannelNormalize
  rw [chanSlice0, slice0_min, slice0_max]
  rw [List.getD_append _ _ _ 1 (by
    simp only [List.length_append, List.length_map, length_repBlocks,
      List.length_cons, List.length_nil]
    omega)]
  rw [List.getD_append _ _ _ 1 (by
    simp only [List.length_map, length_repBlocks, List.length_cons, List.length_nil]
    omega)]
  rw [getD_map_of_lt _ (by
    simp only [length_repBlocks, List.length_cons, List.length_nil]
    omega) none 0]
  rw [show (repBlocks 8192 [(0 : ℚ), 1]).getD 1 0 = 1 from rfl]
  norm_num [normalizeVal]

/-- C3: normalization rescales every sample of every channel with the
one global `(min, max)` pair, the global min and max bound all 49152
samples across the three planes, and global normalization is genuinely
different from the per-channel variant the design notes reject. -/
theorem c3_global_minmax_not_per_channel :
    (∀ (vs : List ℚ) (i : ℕ), i < vs.length →
        (normalizeAll vs).getD i none =
          normalizeVal (listMin vs) (listMax vs) (vs.getD i 0)) ∧
    (∀ (vs : List ℚ), ∀ x ∈ vs, listMin vs ≤ x ∧ x ≤ listMax vs) ∧
    normalizeAll chanDemo ≠ perChannelNormalize chanDemo := by
  refine ⟨?_, ?_, ?_⟩
  · intro vs i h
    unfold normalizeAll
    exact getD_map_of_lt _ h none 0
  · exact fun vs x hx => ⟨listMin_le_mem hx, mem_le_listMax hx⟩
  · intro h
    have h2 : (normalizeAll chanDemo).getD 1 none =
        (perChannelNormalize chanDemo).getD 1 none := by rw [h]
    rw [normalizeAll_chanDemo_getD1, perChannel_chanDemo_getD1] at h2
    simp at h2
    norm_num at h2

/-- Witness for C3 at a concrete two-element sample list. -/
theorem c3_witness :
    (0 : ℕ) < ([(5 : ℚ), 9] : List ℚ).length ∧
    (normalizeAll [(5 : ℚ), 9]).getD 0 none =
      normalizeVal (listMin [(5 : ℚ), 9]) (listMax [(5 : ℚ), 9])
        (([(5 : ℚ), 9] : List ℚ).getD 0 0) ∧
    ((5 : ℚ) ∈ ([(5 : ℚ), 9] : List ℚ) ∧
      listMin [(5 : ℚ), 9] ≤ (5 : ℚ) ∧ (5 : ℚ) ≤ listMax [(5 : ℚ), 9]) :=
  ⟨by norm_num, c3_global_minmax_not_per_channel.1 [5, 9] 0 (by norm_num),
    by simp, c3_global_minmax_not_per_channel.2.1 [5, 9] 5 (by simp)⟩

end Bin2Img
